import Mathlib

/-!
Shallow embedding of `pkg/ap/jsoniter.go`, the additional-properties
extension for the jsoniter JSON codec.

Modelling conventions:

* A JSON value captured as raw bytes (`json.RawMessage`) is a `Fragment`
  (an opaque string of bytes).
* A decoded JSON object, as delivered by the external token reader, is a
  `List (String × Fragment)` of key/value pairs in source order.  The
  spec describes the reader as exposing "read the next object key (or
  detect object end)"; the repository's decode loop tests the returned
  key against the empty string to detect object end
  (`if key == "" { break }` in `apStructDecoder.Decode`), which is kept
  verbatim in the model.
* Go maps are modelled as association lists with insert-replaces-key
  semantics (`mapInsert` / `mapLookup`).  A Go map range has no
  specified order; wherever the source ranges over a map
  (`apStructEncoder.Encode`), the model takes the enumeration order as
  an explicit parameter, constrained in theorems to be a permutation of
  the map's entries.
* `map[string]*jsoniter.Binding` can hold a nil pointer under a present
  key, which Go lookup cannot distinguish from an absent key; it is
  modelled as `List (String × Option Binding)`, so a lookup yields
  `Option (Option Binding)`.
* Struct-field storage accessed through `unsafe.Pointer` is modelled as
  a function from a field identifier to the last value stored there.
* Case folding (`strings.ToLower`) and tag splitting (`strings.Split`)
  are modelled by the executable `lowerString` and `goSplit` below,
  which agree with the Go originals on ASCII input (Go field names and
  tags are ASCII).
-/

/-- Raw bytes of one JSON value (`json.RawMessage`). -/
abbrev Fragment := String

/-- `jsoniter.Binding`: one typed field of a struct descriptor.
`fromNames`/`toNames` are the decode/encode names, `fid` identifies the
field's storage location on an instance, and `isEmpty`/`encode` model
the field's normal jsoniter value encoder applied to that storage. -/
structure Binding where
  fromNames : List String
  toNames : List String
  fid : Nat
  isEmpty : Option Fragment → Bool
  encode : Option Fragment → Fragment

/-- One field of a reflect2 struct type: Go name, `json` tag, whether it
is anonymous (embedded), the type name of its type, and — when the field
is an embedded struct — that struct type's own fields. -/
inductive RField where
  | mk (name : String) (tag : Option String) (anonymous : Bool)
      (tname : String) (sub : List RField)

/-- Go name of the field. -/
def RField.name : RField → String
  | .mk n _ _ _ _ => n

/-- The field's `json` tag, when present. -/
def RField.tag : RField → Option String
  | .mk _ t _ _ _ => t

/-- Whether the field is anonymous (embedded). -/
def RField.anonymous : RField → Bool
  | .mk _ _ a _ _ => a

/-- Type name of the field's type. -/
def RField.tname : RField → String
  | .mk _ _ _ t _ => t

/-- Fields of the field's (struct) type, used for embedded fields. -/
def RField.sub : RField → List RField
  | .mk _ _ _ _ s => s

/-- `jsoniter.StructDescriptor`: the type's name, its ordered typed-field
bindings, and the reflect2 struct fields of the described type. -/
structure StructDesc where
  tname : String
  fields : List Binding
  rfields : List RField

/-- One instance being decoded into or encoded from: typed-field storage
by field identifier, and the additional-properties map field (a nil-able
Go map, hence `Option`). -/
structure Instance where
  typed : Nat → Option Fragment
  ap : Option (List (String × Fragment))

/-- Go map assignment `m[k] = v` on an association-list model: replaces
the value at an existing key in place, otherwise appends the entry. -/
def mapInsert {α : Type} (m : List (String × α)) (k : String) (v : α) :
    List (String × α) :=
  if m.any (fun p => p.1 == k) then
    m.map (fun p => if p.1 = k then (k, v) else p)
  else
    m ++ [(k, v)]

/-- Go map lookup `m[k]` on the association-list model. -/
def mapLookup {α : Type} (m : List (String × α)) (k : String) : Option α :=
  (m.find? (fun p => p.1 == k)).map (fun p => p.2)

/-- ASCII case folding of one character, as `strings.ToLower` does for
ASCII input. -/
def lowerChar (c : Char) : Char :=
  if 'A' ≤ c ∧ c ≤ 'Z' then Char.ofNat (c.toNat + 32) else c

/-- `strings.ToLower` on ASCII strings. -/
def lowerString (s : String) : String :=
  ⟨s.data.map lowerChar⟩

/-- Split a character list at every occurrence of the separator. -/
def splitAux (sep : Char) : List Char → List (List Char)
  | [] => [[]]
  | c :: rest =>
    let r := splitAux sep rest
    if c = sep then [] :: r
    else (c :: r.headD []) :: r.tail

/-- `strings.Split(s, sep)` for a one-character separator (the source
only splits on `","`). -/
def goSplit (s : String) (sep : Char) : List String :=
  (splitAux sep s.data).map (fun cs => ⟨cs⟩)

/-- State of the extension singleton: the `Desc` and `APBinding` caches of
`additionalPropertiesExtension` (the mutex only serialises access and has
no sequential behaviour). -/
structure ExtState where
  desc : List (String × StructDesc)
  apBinding : List (String × Option Binding)

/-- The wildcard test of `UpdateStructDescriptor`:
`len(binding.FromNames) == 1 && binding.FromNames[0] == "*"`. -/
def isWildcard (b : Binding) : Bool :=
  b.fromNames.length == 1 && b.fromNames.headD "" == "*"

/-- The field scan of `UpdateStructDescriptor`: walk the bindings in
order; at the first wildcard, return it and the list with exactly that
element removed (`append(desc.Fields[:idx], desc.Fields[idx+1:]...)`)
and stop (`break`). -/
def removeFirstWildcard : List Binding → Option Binding × List Binding
  | [] => (none, [])
  | b :: rest =>
    if isWildcard b then (some b, rest)
    else
      let r := removeFirstWildcard rest
      (r.1, b :: r.2)

/-- `additionalPropertiesExtension.UpdateStructDescriptor`: return
immediately when the type is already in the `Desc` cache; otherwise cache
the descriptor, and record the first wildcard binding (if any) in
`APBinding` while removing it from the descriptor's field list. -/
def updateStructDescriptor (s : ExtState) (d : StructDesc) : ExtState :=
  if (mapLookup s.desc d.tname).isSome then s
  else
    match removeFirstWildcard d.fields with
    | (some w, fs) =>
      { desc := mapInsert s.desc d.tname { d with fields := fs },
        apBinding := mapInsert s.apBinding d.tname (some w) }
    | (none, _) =>
      { desc := mapInsert s.desc d.tname d, apBinding := s.apBinding }

/-- `additionalPropertiesExtension.embeddedAPBinding`: scan the struct
type's fields; at the first anonymous field whose type name is a key of
the `APBinding` cache, adopt that entry's value (which may be a recorded
nil) and stop (`break`). -/
def embeddedAPBinding (apb : List (String × Option Binding)) :
    List RField → Option Binding
  | [] => none
  | f :: rest =>
    if f.anonymous then
      match mapLookup apb f.tname with
      | some a => a
      | none => embeddedAPBinding apb rest
    else embeddedAPBinding apb rest

/-- The promotion step shared by `DecorateDecoder` and `DecorateEncoder`:
`if e.APBinding[name] == nil && e.Desc[name] != nil {
   e.APBinding[name] = e.embeddedAPBinding(e.Desc[name].Type) }`.
A Go lookup of a `map[string]*Binding` yields nil both for an absent key
and for a present nil entry, hence the `(·.getD none)`. -/
def promoteAP (s : ExtState) (name : String) : ExtState :=
  match mapLookup s.desc name with
  | some d =>
    if ((mapLookup s.apBinding name).getD none).isNone then
      { s with
        apBinding :=
          mapInsert s.apBinding name (embeddedAPBinding s.apBinding d.rfields) }
    else s
  | none => s

/-- The field table built by `DecorateDecoder`: for each binding, insert
it under `FromNames[0]` and under `strings.ToLower(FromNames[0])`; later
bindings overwrite earlier entries at the same key. -/
def buildDecoderFields (fields : List Binding) : List (String × Binding) :=
  fields.foldl
    (fun acc b =>
      let fn := b.fromNames.headD ""
      mapInsert (mapInsert acc fn b) (lowerString fn) b)
    []

/-- The field table built by `DecorateEncoder`: each binding inserted
under `ToNames[0]`. -/
def buildEncoderFields (fields : List Binding) : List (String × Binding) :=
  fields.foldl (fun acc b => mapInsert acc (b.toNames.headD "") b) []

/-- `apStructDecoder`: the decode-name table and the AP binding (a
pointer, so nil-able). -/
structure APDecoder where
  fields : List (String × Binding)
  apBinding : Option Binding

/-- Write a decoded value into a typed field's storage
(`binding.Decoder.Decode(ptr, iter)`). -/
def setTyped (inst : Instance) (fid : Nat) (v : Fragment) : Instance :=
  { inst with typed := fun i => if i = fid then some v else inst.typed i }

/-- One iteration of the `apStructDecoder.Decode` loop body for a key
already known not to be the terminator: exact lookup, then lowercased
lookup, else capture the raw fragment in the additional-properties map
under the original key.  When the AP binding is nil the captured
fragment only reaches the local map, which is unobservable. -/
def decodeStep (d : APDecoder) (inst : Instance) (kv : String × Fragment) :
    Instance :=
  match mapLookup d.fields kv.1 with
  | some b => setTyped inst b.fid kv.2
  | none =>
    match mapLookup d.fields (lowerString kv.1) with
    | some b => setTyped inst b.fid kv.2
    | none =>
      if d.apBinding.isSome then
        { inst with ap := some (mapInsert (inst.ap.getD []) kv.1 kv.2) }
      else inst

/-- The `for` loop of `apStructDecoder.Decode`: read keys until the
reader yields the empty string (`if key == "" { break }`). -/
def apDecodeLoop (d : APDecoder) :
    Instance → List (String × Fragment) → Instance
  | inst, [] => inst
  | inst, kv :: rest =>
    if kv.1 = "" then inst else apDecodeLoop d (decodeStep d inst kv) rest

/-- `apStructDecoder.Decode`: allocate a fresh empty AP map and, when the
AP binding is non-nil, store its address into the instance before any key
is read; then run the key loop. -/
def apDecode (d : APDecoder) (inst : Instance)
    (input : List (String × Fragment)) : Instance :=
  apDecodeLoop d
    (if d.apBinding.isSome then { inst with ap := some [] } else inst) input

/-- Tokens written to the jsoniter output stream. -/
inductive Tok where
  | objStart
  | objEnd
  | more
  | key (k : String)
  | val (v : Fragment)
deriving DecidableEq, Repr

/-- `apStructEncoder`: the encode-name table, the AP binding, and the
omit-empty table. -/
structure APEncoder where
  fields : List (String × Binding)
  apBinding : Option Binding
  omits : List (String × Bool)

/-- Emit one field: `WriteMore` unless this is the first emitted field,
then `WriteObjectField` and the value. -/
def emitStep (acc : List Tok × Bool) (p : String × Fragment) :
    List Tok × Bool :=
  (acc.1 ++ (if acc.2 then [] else [Tok.more]) ++ [Tok.key p.1, Tok.val p.2],
    false)

/-- One iteration of the typed-field loop of `apStructEncoder.Encode`:
skip the field when its encode name is marked omit-empty and its value
encoder reports empty, otherwise emit it. -/
def encStep (e : APEncoder) (inst : Instance) (acc : List Tok × Bool)
    (kb : String × Binding) : List Tok × Bool :=
  if (mapLookup e.omits kb.1).getD false
      && kb.2.isEmpty (inst.typed kb.2.fid) then acc
  else emitStep acc (kb.1, kb.2.encode (inst.typed kb.2.fid))

/-- `apStructEncoder.Encode`.  `fperm` is the order in which the Go map
`e.Fields` happens to be ranged over, and `aperm` the order for the
instance's additional-properties map; Go leaves both orders unspecified,
so theorems quantify over all permutations of the respective entries. -/
def apEncode (e : APEncoder) (inst : Instance)
    (fperm : List (String × Binding)) (aperm : List (String × Fragment)) :
    List Tok :=
  match e.apBinding with
  | none => (fperm.foldl (encStep e inst) ([Tok.objStart], true)).1 ++ [Tok.objEnd]
  | some _ =>
    (aperm.foldl emitStep
        (fperm.foldl (encStep e inst) ([Tok.objStart], true))).1 ++ [Tok.objEnd]

/-- `apStructEncoder.IsEmpty`: constantly false. -/
def APEncoder.isEmptyOn (_e : APEncoder) (_inst : Instance) : Bool :=
  false

/-- `jsonTag`: name and qualifier list parsed from a field's `json` tag;
absent tag means the Go field name and no qualifiers, an empty leading
tag part also falls back to the Go field name. -/
def jsonTag (fname : String) (tag : Option String) : String × List String :=
  match tag with
  | none => (fname, [])
  | some jt =>
    let parts := goSplit jt ','
    let name := parts.headD ""
    (if name = "" then fname else name, parts.tail)

/-- `omitEmpties`: build the name-to-omit-empty table of a struct type,
merging an embedded struct's own table into the parent's. -/
def omitEmptiesFrom : List (String × Bool) → List RField → List (String × Bool)
  | acc, [] => acc
  | acc, .mk name tag anonymous _ sub :: rest =>
    if anonymous then
      let embedded := omitEmptiesFrom [] sub
      omitEmptiesFrom
        (embedded.foldl (fun a kv => mapInsert a kv.1 kv.2) acc) rest
    else
      let p := jsonTag name tag
      omitEmptiesFrom (mapInsert acc p.1 (p.2.contains "omitempty")) rest
termination_by _ fs => sizeOf fs

/-- `omitEmpties` applied to a struct type's field list. -/
def omitEmpties (fs : List RField) : List (String × Bool) :=
  omitEmptiesFrom [] fs

/-- Keys written to the stream, in order. -/
def keysOf : List Tok → List String
  | [] => []
  | Tok.key k :: rest => k :: keysOf rest
  | _ :: rest => keysOf rest

/-- Key/value pairs written to the stream: each `key` token paired with
the immediately following `val` token. -/
def pairsOf : List Tok → List (String × Fragment)
  | Tok.key k :: Tok.val v :: rest => (k, v) :: pairsOf rest
  | _ :: rest => pairsOf rest
  | [] => []

/-- Token run of a list of fields joined by separators, each field
preceded by one separator. -/
def joinMore : List (String × Fragment) → List Tok
  | [] => []
  | p :: rest => Tok.more :: Tok.key p.1 :: Tok.val p.2 :: joinMore rest

/-- Token run of a list of fields with a separator before every field
after the first. -/
def sepJoin : List (String × Fragment) → List Tok
  | [] => []
  | p :: rest => [Tok.key p.1, Tok.val p.2] ++ joinMore rest

/-- The typed fields kept (not skipped by omit-empty) by `apEncode`, in
the given enumeration order, paired with their encoded values. -/
def keptPairs (e : APEncoder) (inst : Instance)
    (fperm : List (String × Binding)) : List (String × Fragment) :=
  (fperm.filter
      (fun kb =>
        !((mapLookup e.omits kb.1).getD false
            && kb.2.isEmpty (inst.typed kb.2.fid)))).map
    (fun kb => (kb.1, kb.2.encode (inst.typed kb.2.fid)))

/-- The merged decode-name test: a binding matches a looked-up key when
its decode name or the lowercased decode name equals it. -/
def nameMatches (k : String) (b : Binding) : Bool :=
  b.fromNames.headD "" == k || lowerString (b.fromNames.headD "") == k

/-- Value of the last occurrence of a key in a decoded object: a match
later in the list takes precedence over an earlier one. -/
def lastVal : List (String × Fragment) → String → Option Fragment
  | [], _ => none
  | kv :: rest, k => (lastVal rest k).or (if kv.1 = k then some kv.2 else none)

/-! ### Association-list map lemmas -/

theorem mapLookup_cons {α : Type} (p : String × α) (m : List (String × α))
    (k : String) :
    mapLookup (p :: m) k = if p.1 = k then some p.2 else mapLookup m k := by
  by_cases h : p.1 = k
  · rw [if_pos h]
    unfold mapLookup
    rw [List.find?_cons_of_pos _ (by simp [h])]
    rfl
  · rw [if_neg h]
    unfold mapLookup
    rw [List.find?_cons_of_neg _ (by simp [h])]

theorem any_eq_lookup_isSome {α : Type} (m : List (String × α)) (k : String) :
    m.any (fun p => p.1 == k) = (mapLookup m k).isSome := by
  induction m with
  | nil => simp [mapLookup]
  | cons p rest ih =>
    by_cases h : p.1 = k <;> simp [mapLookup_cons, h, ih]

theorem mapLookup_append {α : Type} (m m' : List (String × α)) (k : String) :
    mapLookup (m ++ m') k = (mapLookup m k).or (mapLookup m' k) := by
  induction m with
  | nil => simp [mapLookup]
  | cons p rest ih =>
    rw [List.cons_append, mapLookup_cons, mapLookup_cons]
    by_cases h : p.1 = k <;> simp [h, ih]

theorem mapLookup_map_replace {α : Type} (m : List (String × α))
    (k k' : String) (v : α) :
    mapLookup (m.map (fun p => if p.1 = k then (k, v) else p)) k' =
      if k = k' then (mapLookup m k).map (fun _ => v) else mapLookup m k' := by
  induction m with
  | nil => by_cases h : k = k' <;> simp [mapLookup, h]
  | cons p rest ih =>
    rw [List.map_cons]
    by_cases hk : k = k'
    · subst hk
      by_cases hp : p.1 = k <;> simp [hp, mapLookup_cons, ih]
    · by_cases hp : p.1 = k
      · by_cases hp' : p.1 = k'
        · exact absurd (hp ▸ hp') hk
        · simp [hp, hp', hk, mapLookup_cons, ih]
      · have hk' : ¬k' = k := fun h => hk h.symm
        by_cases hp' : p.1 = k'
        · simp [hp, hp', hk, hk', mapLookup_cons, ih]
        · simp [hp, hp', hk, hk', mapLookup_cons, ih]

theorem mapLookup_insert {α : Type} (m : List (String × α)) (k k' : String)
    (v : α) :
    mapLookup (mapInsert m k v) k' =
      if k = k' then some v else mapLookup m k' := by
  unfold mapInsert
  by_cases hg : m.any (fun p => p.1 == k) = true
  · rw [if_pos hg, mapLookup_map_replace]
    by_cases hk : k = k'
    · rw [if_pos hk, if_pos hk]
      have hs : (mapLookup m k).isSome := by
        rw [← any_eq_lookup_isSome]; exact hg
      obtain ⟨a, ha⟩ := Option.isSome_iff_exists.mp hs
      simp [ha]
    · rw [if_neg hk, if_neg hk]
  · rw [if_neg hg, mapLookup_append]
    have hn : mapLookup m k = none := by
      cases hmk : mapLookup m k with
      | none => rfl
      | some a =>
        exact absurd (by rw [any_eq_lookup_isSome, hmk]; rfl) hg
    have hsingle : mapLookup [(k, v)] k' = if k = k' then some v else none := by
      rw [mapLookup_cons]
      simp [mapLookup]
    rw [hsingle]
    by_cases hk : k = k'
    · subst hk
      rw [hn]
      simp
    · rw [if_neg hk, if_neg hk]
      cases mapLookup m k' <;> rfl

theorem mem_of_mapLookup {α : Type} (m : List (String × α)) (k : String)
    (v : α) (h : mapLookup m k = some v) : (k, v) ∈ m := by
  induction m with
  | nil => simp [mapLookup] at h
  | cons p rest ih =>
    rw [mapLookup_cons] at h
    by_cases hp : p.1 = k
    · rw [if_pos hp] at h
      have hpv : p = (k, v) := by
        cases p
        simp_all
      simp [hpv]
    · rw [if_neg hp] at h
      exact List.mem_cons_of_mem _ (ih h)

/-! ### Decoder lemmas -/

theorem decodeStep_ap_of_match (d : APDecoder) (inst : Instance)
    (kv : String × Fragment)
    (h : (mapLookup d.fields kv.1).isSome
      ∨ (mapLookup d.fields (lowerString kv.1)).isSome) :
    (decodeStep d inst kv).ap = inst.ap := by
  rcases h with h | h
  · obtain ⟨b, hb⟩ := Option.isSome_iff_exists.mp h
    simp [decodeStep, hb, setTyped]
  · obtain ⟨b, hb⟩ := Option.isSome_iff_exists.mp h
    cases h1 : mapLookup d.fields kv.1 with
    | some b' => simp [decodeStep, h1, setTyped]
    | none => simp [decodeStep, h1, hb, setTyped]

theorem decodeStep_of_unknown (d : APDecoder) (inst : Instance)
    (kv : String × Fragment)
    (h1 : mapLookup d.fields kv.1 = none)
    (h2 : mapLookup d.fields (lowerString kv.1) = none)
    (hb : d.apBinding.isSome) :
    decodeStep d inst kv =
      { inst with ap := some (mapInsert (inst.ap.getD []) kv.1 kv.2) } := by
  simp [decodeStep, h1, h2, hb]

theorem apDecodeLoop_eq_foldl (d : APDecoder) :
    ∀ (input : List (String × Fragment)) (inst : Instance),
      (∀ p ∈ input, p.1 ≠ "") →
      apDecodeLoop d inst input = input.foldl (decodeStep d) inst := by
  intro input
  induction input with
  | nil => intro inst _; rfl
  | cons kv rest ih =>
    intro inst h
    have step : apDecodeLoop d inst (kv :: rest)
        = if kv.1 = "" then inst
          else apDecodeLoop d (decodeStep d inst kv) rest := rfl
    rw [step, if_neg (h kv (List.mem_cons_self kv rest)), List.foldl_cons]
    exact ih _ (fun p hp => h p (List.mem_cons_of_mem _ hp))

theorem foldl_decode_ap_lookup (d : APDecoder) (k : String)
    (hb : d.apBinding.isSome = true)
    (h1 : mapLookup d.fields k = none)
    (h2 : mapLookup d.fields (lowerString k) = none) :
    ∀ (input : List (String × Fragment)) (inst : Instance),
      mapLookup ((input.foldl (decodeStep d) inst).ap.getD []) k =
        (lastVal input k).or (mapLookup (inst.ap.getD []) k) := by
  intro input
  induction input with
  | nil => intro inst; simp [lastVal]
  | cons kv rest ih =>
    intro inst
    rw [List.foldl_cons, ih]
    by_cases hkv : kv.1 = k
    · have e1 : mapLookup d.fields kv.1 = none := by rw [hkv]; exact h1
      have e2 : mapLookup d.fields (lowerString kv.1) = none := by
        rw [hkv]; exact h2
      rw [decodeStep_of_unknown d inst kv e1 e2 hb]
      simp only [Option.getD_some, mapLookup_insert, hkv, if_pos rfl]
      rw [show lastVal (kv :: rest) k
          = (lastVal rest k).or (if kv.1 = k then some kv.2 else none) from rfl]
      rw [if_pos hkv]
      cases lastVal rest k <;> simp
    · have hap : mapLookup ((decodeStep d inst kv).ap.getD []) k
          = mapLookup (inst.ap.getD []) k := by
        cases hA : mapLookup d.fields kv.1 with
        | some b => simp [decodeStep, hA, setTyped]
        | none =>
          cases hB : mapLookup d.fields (lowerString kv.1) with
          | some b => simp [decodeStep, hA, hB, setTyped]
          | none =>
            by_cases hbb : d.apBinding.isSome <;>
              simp [decodeStep, hA, hB, hbb, mapLookup_insert, hkv]
      rw [hap]
      rw [show lastVal (kv :: rest) k
          = (lastVal rest k).or (if kv.1 = k then some kv.2 else none) from rfl]
      rw [if_neg hkv]
      cases lastVal rest k <;> simp

theorem apDecode_ap_lookup (d : APDecoder) (k : String)
    (hb : d.apBinding.isSome = true)
    (h1 : mapLookup d.fields k = none)
    (h2 : mapLookup d.fields (lowerString k) = none)
    (input : List (String × Fragment)) (inst : Instance)
    (hkeys : ∀ p ∈ input, p.1 ≠ "") :
    mapLookup ((apDecode d inst input).ap.getD []) k = lastVal input k := by
  unfold apDecode
  rw [if_pos hb, apDecodeLoop_eq_foldl d input _ hkeys,
    foldl_decode_ap_lookup d k hb h1 h2]
  simp [mapLookup]

theorem foldl_decode_ap_allmatch (d : APDecoder) :
    ∀ (input : List (String × Fragment)),
      (∀ p ∈ input, (mapLookup d.fields p.1).isSome
        ∨ (mapLookup d.fields (lowerString p.1)).isSome) →
      ∀ inst : Instance, (input.foldl (decodeStep d) inst).ap = inst.ap := by
  intro input
  induction input with
  | nil => intro _ inst; rfl
  | cons kv rest ih =>
    intro h inst
    rw [List.foldl_cons, ih (fun p hp => h p (List.mem_cons_of_mem _ hp))]
    exact decodeStep_ap_of_match d inst kv (h kv (List.mem_cons_self kv rest))

/-! ### Encoder lemmas -/

theorem foldl_emitStep_false (l : List (String × Fragment)) :
    ∀ toks : List Tok,
      l.foldl emitStep (toks, false) = (toks ++ joinMore l, false) := by
  induction l with
  | nil => intro toks; simp [joinMore]
  | cons p rest ih =>
    intro toks
    rw [List.foldl_cons]
    have hstep : emitStep (toks, false) p
        = (toks ++ [Tok.more, Tok.key p.1, Tok.val p.2], false) := by
      simp [emitStep]
    rw [hstep, ih]
    simp [joinMore]

theorem foldl_emitStep_true_cons (p : String × Fragment)
    (rest : List (String × Fragment)) (toks : List Tok) :
    (p :: rest).foldl emitStep (toks, true)
      = (toks ++ sepJoin (p :: rest), false) := by
  rw [List.foldl_cons]
  have hstep : emitStep (toks, true) p
      = (toks ++ [Tok.key p.1, Tok.val p.2], false) := by
    simp [emitStep]
  rw [hstep, foldl_emitStep_false]
  simp [sepJoin]

theorem keptPairs_cons (e : APEncoder) (inst : Instance)
    (kb : String × Binding) (rest : List (String × Binding)) :
    keptPairs e inst (kb :: rest) =
      if (mapLookup e.omits kb.1).getD false
          && kb.2.isEmpty (inst.typed kb.2.fid) then
        keptPairs e inst rest
      else
        (kb.1, kb.2.encode (inst.typed kb.2.fid)) :: keptPairs e inst rest := by
  by_cases h : ((mapLookup e.omits kb.1).getD false
      && kb.2.isEmpty (inst.typed kb.2.fid)) = true
  · have h' : (mapLookup e.omits kb.1).getD false = true
        ∧ kb.2.isEmpty (inst.typed kb.2.fid) = true := by simpa using h
    obtain ⟨ha, hbb⟩ := h'
    simp [keptPairs, List.filter_cons, h, ha, hbb]
  · rw [Bool.not_eq_true] at h
    by_cases ha : (mapLookup e.omits kb.1).getD false = true
    · have hbb : kb.2.isEmpty (inst.typed kb.2.fid) = false := by
        cases hb2 : kb.2.isEmpty (inst.typed kb.2.fid)
        · rfl
        · rw [ha, hb2] at h
          simp at h
      simp [keptPairs, List.filter_cons, h, ha, hbb]
    · rw [Bool.not_eq_true] at ha
      simp [keptPairs, List.filter_cons, h, ha]

theorem foldl_encStep (e : APEncoder) (inst : Instance) :
    ∀ (fperm : List (String × Binding)) (acc : List Tok × Bool),
      fperm.foldl (encStep e inst) acc
        = (keptPairs e inst fperm).foldl emitStep acc := by
  intro fperm
  induction fperm with
  | nil => intro acc; rfl
  | cons kb rest ih =>
    intro acc
    rw [List.foldl_cons, keptPairs_cons]
    by_cases h : ((mapLookup e.omits kb.1).getD false
        && kb.2.isEmpty (inst.typed kb.2.fid)) = true
    · rw [if_pos h]
      have hstep : encStep e inst acc kb = acc := by
        simp [encStep, h]
      rw [hstep, ih]
    · rw [Bool.not_eq_true] at h
      rw [if_neg (by simp [h])]
      have hstep : encStep e inst acc kb
          = emitStep acc (kb.1, kb.2.encode (inst.typed kb.2.fid)) := by
        simp [encStep, h]
      rw [hstep, ih, List.foldl_cons]

theorem apEncode_closed (e : APEncoder) (inst : Instance)
    (fperm : List (String × Binding)) (aperm : List (String × Fragment)) :
    apEncode e inst fperm aperm =
      [Tok.objStart]
        ++ sepJoin (keptPairs e inst fperm
            ++ (if e.apBinding.isSome then aperm else []))
        ++ [Tok.objEnd] := by
  unfold apEncode
  cases hb : e.apBinding with
  | none =>
    rw [foldl_encStep]
    simp only [Option.isSome_none, Bool.false_eq_true, if_false,
      List.append_nil]
    cases hK : keptPairs e inst fperm with
    | nil => simp [sepJoin]
    | cons p rest => rw [foldl_emitStep_true_cons]
  | some b =>
    rw [foldl_encStep, ← List.foldl_append]
    simp only [Option.isSome_some, if_true]
    cases hK : keptPairs e inst fperm ++ aperm with
    | nil => simp [sepJoin]
    | cons p rest => rw [foldl_emitStep_true_cons]

/-! ### Token-stream extraction lemmas -/

theorem pairsOf_keyval (k : String) (v : Fragment) (rest : List Tok) :
    pairsOf (Tok.key k :: Tok.val v :: rest) = (k, v) :: pairsOf rest := rfl

theorem pairsOf_start (rest : List Tok) :
    pairsOf (Tok.objStart :: rest) = pairsOf rest := rfl

theorem pairsOf_more (rest : List Tok) :
    pairsOf (Tok.more :: rest) = pairsOf rest := rfl

theorem pairsOf_joinMore_end (l : List (String × Fragment)) :
    pairsOf (joinMore l ++ [Tok.objEnd]) = l := by
  induction l with
  | nil => rfl
  | cons p rest ih =>
    show pairsOf (Tok.more :: Tok.key p.1 :: Tok.val p.2
        :: (joinMore rest ++ [Tok.objEnd])) = p :: rest
    rw [pairsOf_more, pairsOf_keyval, ih]

theorem pairsOf_output (l : List (String × Fragment)) :
    pairsOf ([Tok.objStart] ++ sepJoin l ++ [Tok.objEnd]) = l := by
  cases l with
  | nil => rfl
  | cons p rest =>
    show pairsOf (Tok.objStart :: Tok.key p.1 :: Tok.val p.2
        :: (joinMore rest ++ [Tok.objEnd])) = p :: rest
    rw [pairsOf_start, pairsOf_keyval, pairsOf_joinMore_end]

theorem keysOf_key (k : String) (rest : List Tok) :
    keysOf (Tok.key k :: rest) = k :: keysOf rest := rfl

theorem keysOf_val (v : Fragment) (rest : List Tok) :
    keysOf (Tok.val v :: rest) = keysOf rest := rfl

theorem keysOf_more (rest : List Tok) :
    keysOf (Tok.more :: rest) = keysOf rest := rfl

theorem keysOf_start (rest : List Tok) :
    keysOf (Tok.objStart :: rest) = keysOf rest := rfl

theorem keysOf_joinMore_end (l : List (String × Fragment)) :
    keysOf (joinMore l ++ [Tok.objEnd]) = l.map Prod.fst := by
  induction l with
  | nil => rfl
  | cons p rest ih =>
    show keysOf (Tok.more :: Tok.key p.1 :: Tok.val p.2
        :: (joinMore rest ++ [Tok.objEnd])) = p.1 :: rest.map Prod.fst
    rw [keysOf_more, keysOf_key, keysOf_val, ih]

theorem keysOf_output (l : List (String × Fragment)) :
    keysOf ([Tok.objStart] ++ sepJoin l ++ [Tok.objEnd]) = l.map Prod.fst := by
  cases l with
  | nil => rfl
  | cons p rest =>
    show keysOf (Tok.objStart :: Tok.key p.1 :: Tok.val p.2
        :: (joinMore rest ++ [Tok.objEnd])) = p.1 :: rest.map Prod.fst
    rw [keysOf_start, keysOf_key, keysOf_val, keysOf_joinMore_end]

/-! ### Decoder-table characterization -/

theorem find?_append_or {α : Type} (l₁ l₂ : List α) (p : α → Bool) :
    (l₁ ++ l₂).find? p = (l₁.find? p).or (l₂.find? p) := by
  induction l₁ with
  | nil => simp
  | cons a rest ih =>
    by_cases h : p a = true
    · rw [List.cons_append, List.find?_cons_of_pos _ h,
        List.find?_cons_of_pos _ h]
      rfl
    · rw [List.cons_append, List.find?_cons_of_neg _ h,
        List.find?_cons_of_neg _ h, ih]

theorem buildDecoderFields_go (k : String) :
    ∀ (fields : List Binding) (acc : List (String × Binding)),
      mapLookup
          (fields.foldl
            (fun acc b =>
              mapInsert (mapInsert acc (b.fromNames.headD "") b)
                (lowerString (b.fromNames.headD "")) b)
            acc) k
        = (fields.reverse.find? (nameMatches k)).or (mapLookup acc k) := by
  intro fields
  induction fields with
  | nil => intro acc; simp
  | cons b rest ih =>
    intro acc
    rw [List.foldl_cons, ih, List.reverse_cons, find?_append_or]
    have hsingle : [b].find? (nameMatches k)
        = if nameMatches k b then some b else none := by
      by_cases h : nameMatches k b = true
      · rw [List.find?_cons_of_pos _ h, if_pos h]
      · rw [List.find?_cons_of_neg _ h, if_neg h]
        rfl
    rw [hsingle, Option.or_assoc]
    congr 1
    by_cases h1 : b.fromNames.headD "" = k
    · have hm : nameMatches k b = true := by
        unfold nameMatches
        rw [h1]
        simp
      rw [mapLookup_insert, mapLookup_insert, if_pos hm]
      by_cases h2 : lowerString (b.fromNames.headD "") = k
      · rw [if_pos h2]
        rfl
      · rw [if_neg h2, if_pos h1]
        rfl
    · by_cases h2 : lowerString (b.fromNames.headD "") = k
      · have hm : nameMatches k b = true := by
          unfold nameMatches
          rw [h2]
          simp
        rw [mapLookup_insert, if_pos h2, if_pos hm]
        rfl
      · have hm : nameMatches k b = false := by
          rw [Bool.eq_false_iff]
          intro hcontra
          unfold nameMatches at hcontra
          rw [Bool.or_eq_true, beq_iff_eq, beq_iff_eq] at hcontra
          rcases hcontra with h | h
          · exact h1 h
          · exact h2 h
        rw [mapLookup_insert, if_neg h2, mapLookup_insert, if_neg h1, hm]
        simp

theorem buildDecoderFields_lookup (fields : List Binding) (k : String) :
    mapLookup (buildDecoderFields fields) k
      = fields.reverse.find? (nameMatches k) := by
  rw [buildDecoderFields, buildDecoderFields_go]
  simp [mapLookup]

/-! ### Wildcard-scan lemmas -/

theorem removeFirstWildcard_skip (pre : List Binding)
    (hpre : ∀ b ∈ pre, isWildcard b = false) :
    ∀ (w : Binding) (post : List Binding), isWildcard w = true →
      removeFirstWildcard (pre ++ w :: post) = (some w, pre ++ post) := by
  induction pre with
  | nil =>
    intro w post hw
    simp [removeFirstWildcard, hw]
  | cons b rest ih =>
    intro w post hw
    have hb : isWildcard b = false := hpre b (List.mem_cons_self b rest)
    rw [List.cons_append]
    show (if isWildcard b then (some b, rest ++ w :: post)
        else
          ((removeFirstWildcard (rest ++ w :: post)).1,
            b :: (removeFirstWildcard (rest ++ w :: post)).2))
      = (some w, b :: rest ++ post)
    rw [if_neg (by simp [hb]),
      ih (fun b' h' => hpre b' (List.mem_cons_of_mem _ h')) w post hw]
    rfl

theorem removeFirstWildcard_none (fields : List Binding)
    (h : ∀ b ∈ fields, isWildcard b = false) :
    removeFirstWildcard fields = (none, fields) := by
  induction fields with
  | nil => rfl
  | cons b rest ih =>
    have hb : isWildcard b = false := h b (List.mem_cons_self b rest)
    show (if isWildcard b then (some b, rest)
        else
          ((removeFirstWildcard rest).1, b :: (removeFirstWildcard rest).2))
      = (none, b :: rest)
    rw [if_neg (by simp [hb]), ih (fun b' h' => h b' (List.mem_cons_of_mem _ h'))]

/-! ### Embedded-promotion lemmas -/

theorem embeddedAPBinding_cons (apb : List (String × Option Binding))
    (f : RField) (rest : List RField) :
    embeddedAPBinding apb (f :: rest)
      = if f.anonymous then
          match mapLookup apb f.tname with
          | some a => a
          | none => embeddedAPBinding apb rest
        else embeddedAPBinding apb rest := rfl

theorem embeddedAPBinding_first_entry (apb : List (String × Option Binding)) :
    ∀ (pre : List RField) (f : RField) (post : List RField),
      (∀ g ∈ pre, g.anonymous = true → mapLookup apb g.tname = none) →
      f.anonymous = true →
      ∀ a : Option Binding, mapLookup apb f.tname = some a →
      embeddedAPBinding apb (pre ++ f :: post) = a := by
  intro pre
  induction pre with
  | nil =>
    intro f post _ hf a ha
    rw [List.nil_append, embeddedAPBinding_cons, if_pos hf, ha]
  | cons g rest ih =>
    intro f post hpre hf a ha
    rw [List.cons_append, embeddedAPBinding_cons]
    by_cases hg : g.anonymous = true
    · rw [if_pos hg, hpre g (List.mem_cons_self g rest) hg]
      exact ih f post (fun g' h' => hpre g' (List.mem_cons_of_mem _ h')) hf a ha
    · rw [if_neg hg]
      exact ih f post (fun g' h' => hpre g' (List.mem_cons_of_mem _ h')) hf a ha

/-! ### Concrete fixtures used by witnesses and counterexamples -/

/-- A plain typed field with decode/encode name `a`, storage slot 0. -/
def bA : Binding :=
  ⟨["a"], ["a"], 0, fun _ => false, fun o => o.getD "null"⟩

/-- A plain typed field with decode/encode name `b`, storage slot 1. -/
def bB : Binding :=
  ⟨["b"], ["b"], 1, fun _ => false, fun o => o.getD "null"⟩

/-- A wildcard (`*`-tagged) additional-properties binding. -/
def bStar : Binding :=
  ⟨["*"], ["*"], 9, fun _ => false, fun o => o.getD "null"⟩

/-- A typed field named `name` (lowercase), storage slot 0. -/
def bName : Binding :=
  ⟨["name"], ["name"], 0, fun _ => false, fun o => o.getD "null"⟩

/-- A typed field named `NAME` (uppercase), storage slot 1. -/
def bNAME : Binding :=
  ⟨["NAME"], ["NAME"], 1, fun _ => false, fun o => o.getD "null"⟩

/-- A typed field whose value encoder reports empty exactly when the
storage slot was never written. -/
def bOmit : Binding :=
  ⟨["a"], ["a"], 0, fun o => o.isNone, fun o => o.getD "null"⟩

/-- A zeroed destination instance: no typed values, nil AP map. -/
def inst0 : Instance := ⟨fun _ => none, none⟩

/-- Struct `A`: one plain field, no wildcard, no embedded fields. -/
def dA : StructDesc := ⟨"A", [bA], []⟩

/-- Struct `B`: one plain field and a wildcard field. -/
def dB : StructDesc := ⟨"B", [bB, bStar], []⟩

/-- Struct `S`: embeds `A` and then `B` anonymously; no own wildcard. -/
def dS : StructDesc :=
  ⟨"S", [], [RField.mk "A" none true "A" [], RField.mk "B" none true "B" []]⟩

/-! ### Claims -/

/-- C4: `UpdateStructDescriptor` is idempotent — when the type is already
present in the `Desc` cache the call returns immediately with the
extension state unchanged, so the cached field list is not modified and
the wildcard removal cannot run a second time for that type. -/
theorem updateStructDescriptor_idempotent (s : ExtState) (d : StructDesc)
    (h : (mapLookup s.desc d.tname).isSome = true) :
    updateStructDescriptor s d = s := by
  unfold updateStructDescriptor
  rw [if_pos h]

/-- Witness: a state that already caches type `A` is returned unchanged
even when the descriptor passed the second time still carries the
wildcard field. -/
theorem updateStructDescriptor_idempotent_witness :
    (mapLookup [("A", dA)] "A").isSome = true
    ∧ updateStructDescriptor ⟨[("A", dA)], []⟩ ⟨"A", [bA, bStar], []⟩
        = ⟨[("A", dA)], []⟩ :=
  ⟨rfl, updateStructDescriptor_idempotent ⟨[("A", dA)], []⟩ _ rfl⟩

/-- C5: descriptor construction scans the bindings in declaration order;
the first binding whose decode-name list is exactly `["*"]` is removed
from the typed list and recorded as the additional-properties binding,
the scan stops there (later wildcards stay in the typed list untouched),
and when no binding matches, the `APBinding` cache is left unchanged and
the field list is cached as-is. -/
theorem updateStructDescriptor_wildcard_scan (s : ExtState) (d : StructDesc)
    (hfresh : mapLookup s.desc d.tname = none) :
    (∀ (pre : List Binding) (w : Binding) (post : List Binding),
        d.fields = pre ++ w :: post →
        (∀ b ∈ pre, isWildcard b = false) →
        isWildcard w = true →
          mapLookup (updateStructDescriptor s d).apBinding d.tname
              = some (some w)
          ∧ mapLookup (updateStructDescriptor s d).desc d.tname
              = some { d with fields := pre ++ post })
    ∧ ((∀ b ∈ d.fields, isWildcard b = false) →
        mapLookup (updateStructDescriptor s d).apBinding d.tname
            = mapLookup s.apBinding d.tname
        ∧ mapLookup (updateStructDescriptor s d).desc d.tname = some d) := by
  have hni : ¬((mapLookup s.desc d.tname).isSome = true) := by
    simp [hfresh]
  constructor
  · intro pre w post hsplit hpre hw
    have hrm := removeFirstWildcard_skip pre hpre w post hw
    unfold updateStructDescriptor
    rw [if_neg hni, hsplit, hrm]
    constructor
    · rw [mapLookup_insert]
      simp
    · rw [mapLookup_insert]
      simp
  · intro hall
    have hrm := removeFirstWildcard_none d.fields hall
    unfold updateStructDescriptor
    rw [if_neg hni, hrm]
    constructor
    · rfl
    · rw [mapLookup_insert]
      simp

/-- Witness: registering a type with fields `[bA, bStar, bStar]` records
the first wildcard and caches `[bA, bStar]` — the second wildcard stays
in the typed list. -/
theorem updateStructDescriptor_wildcard_scan_witness :
    mapLookup (([] : List (String × StructDesc))) "T" = none
    ∧ mapLookup (updateStructDescriptor ⟨[], []⟩
          ⟨"T", [bA, bStar, bStar], []⟩).apBinding "T" = some (some bStar)
    ∧ mapLookup (updateStructDescriptor ⟨[], []⟩
          ⟨"T", [bA, bStar, bStar], []⟩).desc "T"
        = some ⟨"T", [bA, bStar], []⟩ := by
  refine ⟨rfl, ?_⟩
  have h := (updateStructDescriptor_wildcard_scan ⟨[], []⟩
      ⟨"T", [bA, bStar, bStar], []⟩ rfl).1 [bA] bStar [bStar] rfl
      (by
        intro b hb
        rw [List.mem_singleton] at hb
        subst hb
        rfl)
      rfl
  exact h

/-- C8: the decorated decoder stores a fresh empty additional-properties
map into the destination before reading any key, so after decoding an
object with no unknown keys (every key matched a typed field, no key is
the empty-string terminator) the instance's AP field is `some []` — an
empty map, never nil — regardless of the instance's previous contents. -/
theorem apDecode_fresh_ap (d : APDecoder) (inst : Instance)
    (input : List (String × Fragment))
    (hb : d.apBinding.isSome = true)
    (hmatched : ∀ p ∈ input, p.1 ≠ ""
      ∧ ((mapLookup d.fields p.1).isSome
          ∨ (mapLookup d.fields (lowerString p.1)).isSome)) :
    (apDecode d inst input).ap = some [] := by
  unfold apDecode
  rw [if_pos hb,
    apDecodeLoop_eq_foldl d input _ (fun p hp => (hmatched p hp).1),
    foldl_decode_ap_allmatch d input (fun p hp => (hmatched p hp).2)]

/-- Witness: decoding `{"a": "1"}` into a type whose only typed field is
`a` leaves the AP field as an empty map, although the destination's AP
field was nil beforehand. -/
theorem apDecode_fresh_ap_witness :
    (apDecode ⟨[("a", bA)], some bStar⟩ inst0 [("a", "1")]).ap = some [] :=
  apDecode_fresh_ap ⟨[("a", bA)], some bStar⟩ inst0 [("a", "1")] rfl
    (by decide)

theorem decodeStep_of_exact (d : APDecoder) (inst : Instance)
    (kv : String × Fragment) (b : Binding)
    (h : mapLookup d.fields kv.1 = some b) :
    decodeStep d inst kv = setTyped inst b.fid kv.2 := by
  simp [decodeStep, h]

/-- C9: duplicate keys — last write wins.  Appending a final occurrence
of a key to the object determines the final state: a key bound to a
typed field leaves that field's storage holding the last value, and an
unknown key leaves the additional-properties map holding the last
fragment under that key, whatever earlier occurrences were decoded. -/
theorem apDecode_last_write_wins (d : APDecoder) (inst : Instance)
    (xs : List (String × Fragment)) (k : String) (v : Fragment)
    (hkeys : ∀ p ∈ xs, p.1 ≠ "") (hk : k ≠ "") :
    (∀ b : Binding, mapLookup d.fields k = some b →
      (apDecode d inst (xs ++ [(k, v)])).typed b.fid = some v)
    ∧ (mapLookup d.fields k = none →
       mapLookup d.fields (lowerString k) = none →
       d.apBinding.isSome = true →
       mapLookup ((apDecode d inst (xs ++ [(k, v)])).ap.getD []) k
           = some v) := by
  have hall : ∀ p ∈ xs ++ [(k, v)], p.1 ≠ "" := by
    intro p hp
    rcases List.mem_append.mp hp with h | h
    · exact hkeys p h
    · rw [List.mem_singleton] at h
      subst h
      exact hk
  constructor
  · intro b hb
    unfold apDecode
    rw [apDecodeLoop_eq_foldl d _ _ hall, List.foldl_append,
      List.foldl_cons, List.foldl_nil, decodeStep_of_exact d _ _ b hb]
    simp [setTyped]
  · intro h1 h2 hb
    unfold apDecode
    rw [apDecodeLoop_eq_foldl d _ _ hall, List.foldl_append,
      List.foldl_cons, List.foldl_nil, decodeStep_of_unknown d _ _ h1 h2 hb]
    simp [mapLookup_insert]

/-- Witness: decoding `{"a":"1","a":"2"}` leaves the typed field holding
`"2"`, and decoding `{"y":"1","y":"2"}` with no typed field `y` leaves
the additional-properties map holding `"2"` under `y`. -/
theorem apDecode_last_write_wins_witness :
    (apDecode ⟨[("a", bA)], some bStar⟩ inst0
        ([("a", "1")] ++ [("a", "2")])).typed bA.fid = some "2"
    ∧ mapLookup ((apDecode ⟨[], some bStar⟩ inst0
        ([("y", "1")] ++ [("y", "2")])).ap.getD []) "y" = some "2" :=
  ⟨(apDecode_last_write_wins ⟨[("a", bA)], some bStar⟩ inst0
      [("a", "1")] "a" "2" (by decide) (by decide)).1 bA rfl,
   (apDecode_last_write_wins ⟨[], some bStar⟩ inst0
      [("y", "1")] "y" "2" (by decide) (by decide)).2 rfl rfl rfl⟩

/-- C7: a typed field marked omit-empty whose value encoder reports empty
is not emitted (its key is absent from the output when no other emitted
field or AP entry shares the key); a typed field whose value is not
empty is always emitted; and every additional-properties entry is
emitted regardless of the omit-empty table — omit-empty applies only to
typed fields. -/
theorem apEncode_omitempty (rfs : List RField)
    (tbl : List (String × Binding)) (apb : Binding) (inst : Instance)
    (fperm : List (String × Binding)) (aperm : List (String × Fragment))
    (k : String) (b : Binding) :
    ((mapLookup (omitEmpties rfs) k).getD false = true →
      (∀ kb ∈ fperm, kb.1 = k →
        kb.2.isEmpty (inst.typed kb.2.fid) = true) →
      (∀ p ∈ aperm, p.1 ≠ k) →
      k ∉ keysOf (apEncode ⟨tbl, some apb, omitEmpties rfs⟩ inst fperm aperm))
    ∧ ((k, b) ∈ fperm →
      b.isEmpty (inst.typed b.fid) = false →
      k ∈ keysOf (apEncode ⟨tbl, some apb, omitEmpties rfs⟩ inst fperm aperm))
    ∧ (∀ p ∈ aperm,
      p ∈ pairsOf (apEncode ⟨tbl, some apb, omitEmpties rfs⟩ inst fperm aperm))
    := by
  refine ⟨?_, ?_, ?_⟩
  · intro homk hempty hap hkmem
    rw [apEncode_closed, keysOf_output] at hkmem
    simp only [Option.isSome_some, if_true] at hkmem
    rw [List.map_append] at hkmem
    rcases List.mem_append.mp hkmem with h | h
    · obtain ⟨q, hq, hqk⟩ := List.mem_map.mp h
      obtain ⟨kb, hkb, hkbe⟩ := List.mem_map.mp hq
      have hkbmem := (List.mem_filter.mp hkb).1
      have hkcond := (List.mem_filter.mp hkb).2
      have hkey : kb.1 = k := by
        rw [← hqk, ← hkbe]
      have hie := hempty kb hkbmem hkey
      rw [hkey] at hkcond
      rw [homk, hie] at hkcond
      simp at hkcond
    · obtain ⟨q, hq, hqk⟩ := List.mem_map.mp h
      exact hap q hq hqk
  · intro hmem hie
    rw [apEncode_closed, keysOf_output]
    simp only [Option.isSome_some, if_true]
    rw [List.map_append]
    apply List.mem_append_left
    have hkept : (k, b.encode (inst.typed b.fid))
        ∈ keptPairs ⟨tbl, some apb, omitEmpties rfs⟩ inst fperm := by
      unfold keptPairs
      have hf : ((k, b) : String × Binding) ∈ fperm.filter
          (fun kb => !((mapLookup (omitEmpties rfs) kb.1).getD false
            && kb.2.isEmpty (inst.typed kb.2.fid))) :=
        List.mem_filter.mpr ⟨hmem, by simp [hie]⟩
      exact List.mem_map_of_mem _ hf
    exact List.mem_map_of_mem Prod.fst hkept
  · intro p hp
    rw [apEncode_closed, pairsOf_output]
    simp only [Option.isSome_some, if_true]
    exact List.mem_append_right _ hp

/-- A reflect2 struct type with a single plain field `A`, tagged
`json:"a,omitempty"`. -/
def rfsOmit : List RField := [RField.mk "A" (some "a,omitempty") false "string" []]

/-- The table `omitEmpties` parses from `rfsOmit`: field `A` appears
under its tag name `a`, marked omit-empty. -/
theorem omitEmpties_rfsOmit : omitEmpties rfsOmit = [("a", true)] := by
  rw [rfsOmit, omitEmpties, omitEmptiesFrom]
  rw [if_neg (by decide)]
  rw [omitEmptiesFrom]
  decide

/-- Witness: with the omit-empty table parsed from `rfsOmit`, an empty
omit-empty field `a` is absent from the output, a non-empty one is
present, and the AP entry `("x","1")` is always emitted. -/
theorem apEncode_omitempty_witness :
    "a" ∉ keysOf (apEncode ⟨[("a", bOmit)], some bStar, omitEmpties rfsOmit⟩
        inst0 [("a", bOmit)] [("x", "1")])
    ∧ "a" ∈ keysOf (apEncode ⟨[("a", bOmit)], some bStar, omitEmpties rfsOmit⟩
        ⟨fun _ => some "1", some [("x", "1")]⟩ [("a", bOmit)] [("x", "1")])
    ∧ ("x", "1") ∈ pairsOf
        (apEncode ⟨[("a", bOmit)], some bStar, omitEmpties rfsOmit⟩
          inst0 [("a", bOmit)] [("x", "1")]) :=
  ⟨(apEncode_omitempty rfsOmit [("a", bOmit)] bStar inst0
      [("a", bOmit)] [("x", "1")] "a" bOmit).1
      (by rw [omitEmpties_rfsOmit]; rfl) (by decide) (by decide),
   (apEncode_omitempty rfsOmit [("a", bOmit)] bStar
      ⟨fun _ => some "1", some [("x", "1")]⟩
      [("a", bOmit)] [("x", "1")] "a" bOmit).2.1
      (List.mem_singleton_self _) rfl,
   (apEncode_omitempty rfsOmit [("a", bOmit)] bStar inst0
      [("a", bOmit)] [("x", "1")] "a" bOmit).2.2 ("x", "1")
      (List.mem_singleton_self _)⟩

/-- C10: `apStructEncoder.IsEmpty` returns false for every instance, so a
struct whose encoder is the decorated one is never considered empty; in
an enclosing decorated encoder, a field whose value encoder never
reports empty — as is the case for such a struct — is always emitted. -/
theorem apEncoder_never_empty :
    (∀ (e : APEncoder) (inst : Instance), APEncoder.isEmptyOn e inst = false)
    ∧ (∀ (enc : APEncoder) (inst : Instance)
        (fperm : List (String × Binding)) (aperm : List (String × Fragment))
        (kb : String × Binding),
        kb ∈ fperm →
        (∀ o : Option Fragment, kb.2.isEmpty o = false) →
        kb.1 ∈ keysOf (apEncode enc inst fperm aperm)) := by
  constructor
  · intro e inst
    rfl
  · intro enc inst fperm aperm kb hmem hie
    rw [apEncode_closed, keysOf_output, List.map_append]
    apply List.mem_append_left
    have hkept : (kb.1, kb.2.encode (inst.typed kb.2.fid))
        ∈ keptPairs enc inst fperm := by
      unfold keptPairs
      exact List.mem_map_of_mem _
        (List.mem_filter.mpr ⟨hmem, by simp [hie]⟩)
    exact List.mem_map_of_mem Prod.fst hkept

/-- Witness: a field whose encoder is constantly non-empty is emitted
even though the omit-empty table marks its key. -/
theorem apEncoder_never_empty_witness :
    "a" ∈ keysOf (apEncode ⟨[("a", bA)], some bStar, [("a", true)]⟩
        inst0 [("a", bA)] []) :=
  apEncoder_never_empty.2 ⟨[("a", bA)], some bStar, [("a", true)]⟩ inst0
    [("a", bA)] [] ("a", bA) (List.mem_singleton_self _) (fun _ => rfl)

/-- C2 counterexample: `apStructEncoder.Encode` ranges over the Go map
`e.Fields`, whose iteration order is unspecified.  For the descriptor
`[bA, bB]` the enumeration `[("b",bB),("a",bA)]` is a permutation of the
built table — a possible Go map range order — and under it the encoder
emits the keys as `["b","a"]`, while descriptor order is `["a","b"]`:
typed fields are not emitted in descriptor order. -/
theorem apEncode_not_descriptor_order :
    List.Perm [("b", bB), ("a", bA)] (buildEncoderFields [bA, bB])
    ∧ keysOf (apEncode ⟨buildEncoderFields [bA, bB], some bStar, []⟩
        ⟨fun _ => some "1", some []⟩ [("b", bB), ("a", bA)] []) = ["b", "a"]
    ∧ [bA, bB].map (fun b => b.toNames.headD "") = ["a", "b"]
    ∧ ["b", "a"] ≠ (["a", "b"] : List String) := by
  refine ⟨?_, by decide, by decide, by decide⟩
  show List.Perm [("b", bB), ("a", bA)] [("a", bA), ("b", bB)]
  exact List.Perm.swap ("a", bA) ("b", bB) []

/-- C2 amended: for every enumeration order of the encoder's field table
(Go leaves the map range order unspecified), the decorated encoder emits
exactly the typed fields not skipped by omit-empty, once each, in that
enumeration order, with a separator before every field after the first
emitted one, followed by the additional-properties entries. -/
theorem apEncode_emission_shape (fields : List Binding) (apb : Binding)
    (omits : List (String × Bool)) (inst : Instance)
    (fperm : List (String × Binding)) (aperm : List (String × Fragment))
    (hf : List.Perm fperm (buildEncoderFields fields))
    (ha : List.Perm aperm (inst.ap.getD [])) :
    apEncode ⟨buildEncoderFields fields, some apb, omits⟩ inst fperm aperm
      = [Tok.objStart]
        ++ sepJoin
            (keptPairs ⟨buildEncoderFields fields, some apb, omits⟩ inst fperm
              ++ aperm)
        ++ [Tok.objEnd] := by
  rw [apEncode_closed]
  rfl

/-- Witness for the amended C2 emission shape at a concrete encoder. -/
theorem apEncode_emission_shape_witness :
    apEncode ⟨buildEncoderFields [bA], some bStar, []⟩
        ⟨fun _ => some "1", some []⟩ (buildEncoderFields [bA]) []
      = [Tok.objStart]
        ++ sepJoin (keptPairs ⟨buildEncoderFields [bA], some bStar, []⟩
            ⟨fun _ => some "1", some []⟩ (buildEncoderFields [bA]) ++ [])
        ++ [Tok.objEnd] :=
  apEncode_emission_shape [bA] bStar [] ⟨fun _ => some "1", some []⟩
    (buildEncoderFields [bA]) [] (List.Perm.refl _) (List.Perm.refl _)

/-- C3 counterexample: with typed fields `name` then `NAME`, the table
entry for `name` is overwritten by the lowercased name of the later
field `NAME`, so the key `name` — an exact match of `bName`'s decode
name — is decoded into `bNAME`'s storage, not `bName`'s. -/
theorem decode_exact_match_shadowed :
    bName.fromNames.headD "" = "name"
    ∧ (apDecode ⟨buildDecoderFields [bName, bNAME], some bStar⟩ inst0
        [("name", "1")]).typed bName.fid = none
    ∧ (apDecode ⟨buildDecoderFields [bName, bNAME], some bStar⟩ inst0
        [("name", "1")]).typed bNAME.fid = some "1" :=
  ⟨rfl, by decide, by decide⟩

/-- C3 amended: the decoder looks the key up in a single table merging
every field's decode name and lowercased decode name, later fields
overwriting earlier entries at the same key: a key is routed to the LAST
field in declaration order whose decode name or lowercased decode name
equals it; failing that, the same rule is applied to the lowercased key;
failing both, the value is captured in the additional-properties map
under the original (not lowercased) key.  When no two decode names
collide case-insensitively this coincides with the claimed
exact-then-case-insensitive priority. -/
theorem decodeStep_routing (fields : List Binding) (apb : Binding)
    (inst : Instance) (k : String) (v : Fragment) :
    (∀ b : Binding, fields.reverse.find? (nameMatches k) = some b →
      decodeStep ⟨buildDecoderFields fields, some apb⟩ inst (k, v)
        = setTyped inst b.fid v)
    ∧ (fields.reverse.find? (nameMatches k) = none →
      ∀ b : Binding,
        fields.reverse.find? (nameMatches (lowerString k)) = some b →
      decodeStep ⟨buildDecoderFields fields, some apb⟩ inst (k, v)
        = setTyped inst b.fid v)
    ∧ (fields.reverse.find? (nameMatches k) = none →
      fields.reverse.find? (nameMatches (lowerString k)) = none →
      decodeStep ⟨buildDecoderFields fields, some apb⟩ inst (k, v)
        = { inst with ap := some (mapInsert (inst.ap.getD []) k v) }) := by
  refine ⟨?_, ?_, ?_⟩
  · intro b hb
    have h : mapLookup (buildDecoderFields fields) k = some b := by
      rw [buildDecoderFields_lookup]
      exact hb
    exact decodeStep_of_exact _ _ _ b h
  · intro h1 b hb
    have hL1 : mapLookup (buildDecoderFields fields) k = none := by
      rw [buildDecoderFields_lookup]
      exact h1
    have hL2 : mapLookup (buildDecoderFields fields) (lowerString k)
        = some b := by
      rw [buildDecoderFields_lookup]
      exact hb
    simp [decodeStep, hL1, hL2]
  · intro h1 h2
    have hL1 : mapLookup (buildDecoderFields fields) k = none := by
      rw [buildDecoderFields_lookup]
      exact h1
    have hL2 : mapLookup (buildDecoderFields fields) (lowerString k)
        = none := by
      rw [buildDecoderFields_lookup]
      exact h2
    exact decodeStep_of_unknown _ _ _ hL1 hL2 rfl

/-- Witness: key `Name` has no exact entry but case-insensitively
matches `bName`, so the routing decodes it into `bName`'s storage. -/
theorem decodeStep_routing_witness :
    decodeStep ⟨buildDecoderFields [bName], some bStar⟩ inst0 ("Name", "1")
      = setTyped inst0 bName.fid "1" :=
  (decodeStep_routing [bName] bStar inst0 "Name" "1").2.1 rfl bName rfl

/-- C6 counterexample, with every state reached by the code's own
operations: register `A` (plain field, no wildcard), then `B` (carries a
wildcard, so `APBinding["B"]` is recorded), then `S` (no own wildcard,
embeds `A` first and `B` second).  Decorating `A` records the nil result
of its failed promotion under `"A"`.  Decorating `S` then scans its
anonymous fields, finds that `"A"` has an entry — a nil one — adopts it
and stops, so `S` ends with no binding even though `B`, the first
anonymous field that actually carries a registered binding, donates
nothing.  The claim predicts `S` adopts `B`'s binding `bStar`. -/
theorem embedded_promotion_stops_at_nil_entry :
    ((mapLookup (promoteAP (promoteAP (updateStructDescriptor
        (updateStructDescriptor (updateStructDescriptor ⟨[], []⟩ dA) dB) dS)
        "A") "S").apBinding "S").getD none = none)
    ∧ ((mapLookup (promoteAP (promoteAP (updateStructDescriptor
        (updateStructDescriptor (updateStructDescriptor ⟨[], []⟩ dA) dB) dS)
        "A") "S").apBinding "B").getD none = some bStar)
    ∧ ((mapLookup (promoteAP (promoteAP (updateStructDescriptor
        (updateStructDescriptor (updateStructDescriptor ⟨[], []⟩ dA) dB) dS)
        "A") "S").apBinding "S").getD none ≠ some bStar) :=
  ⟨rfl, rfl, fun hcontra => Option.noConfusion hcontra⟩

/-- C6 amended: when a registered type has no additional-properties
binding of its own, the promotion scan adopts the entry of the first
anonymous field whose type name has an entry in the `APBinding` cache —
even an entry recording a nil binding, as stored by an earlier failed
promotion — and stops there; `promoteAP` stores exactly that adopted
value under the containing type, so at most one promotion happens.  When
the earlier anonymous fields have no cache entry at all, this is the
first anonymous field carrying a registered binding, as the claim
states. -/
theorem promoteAP_adopts_first_entry (s : ExtState) (name : String)
    (d : StructDesc) (hd : mapLookup s.desc name = some d)
    (hnob : (mapLookup s.apBinding name).getD none = none)
    (pre : List RField) (f : RField) (post : List RField)
    (hsplit : d.rfields = pre ++ f :: post)
    (hpre : ∀ g ∈ pre, g.anonymous = true →
      mapLookup s.apBinding g.tname = none)
    (hf : f.anonymous = true) (a : Option Binding)
    (ha : mapLookup s.apBinding f.tname = some a) :
    mapLookup (promoteAP s name).apBinding name = some a := by
  have hstep : promoteAP s name
      = { s with
          apBinding :=
            (mapInsert s.apBinding name
              (embeddedAPBinding s.apBinding d.rfields)) } := by
    unfold promoteAP
    simp only [hd]
    rw [if_pos (by rw [hnob]; rfl)]
  rw [hstep, mapLookup_insert, hsplit,
    embeddedAPBinding_first_entry s.apBinding pre f post hpre hf a ha]
  simp

/-- Witness: `S` embeds a non-anonymous field `X` and then anonymous
`B`; `B`'s registered binding is adopted as `S`'s binding. -/
theorem promoteAP_adopts_first_entry_witness :
    mapLookup (promoteAP
        ⟨[("S", ⟨"S", [],
          [RField.mk "X" none false "X" [], RField.mk "B" none true "B" []]⟩)],
         [("B", some bStar)]⟩ "S").apBinding "S"
      = some (some bStar) :=
  promoteAP_adopts_first_entry
    ⟨[("S", ⟨"S", [],
      [RField.mk "X" none false "X" [], RField.mk "B" none true "B" []]⟩)],
     [("B", some bStar)]⟩ "S"
    ⟨"S", [], [RField.mk "X" none false "X" [], RField.mk "B" none true "B" []]⟩
    rfl rfl [RField.mk "X" none false "X" []] (RField.mk "B" none true "B" [])
    [] rfl
    (by
      intro g hg hanon
      rw [List.mem_singleton] at hg
      subst hg
      exact absurd hanon (by decide))
    rfl (some bStar) rfl

/-- C1 counterexample: the decode loop treats the key `""` as the
end-of-object signal (`if key == "" { break }`), so the valid JSON
object `{"":"1"}` — whose single key matches no typed field — decodes to
an empty additional-properties map, and re-encoding yields an empty
object: the unknown key `""` is not reproduced. -/
theorem roundtrip_drops_empty_key :
    pairsOf (apEncode ⟨buildEncoderFields [], some bStar, []⟩
        (apDecode ⟨buildDecoderFields [], some bStar⟩ inst0 [("", "1")])
        [] []) = []
    ∧ apEncode ⟨buildEncoderFields [], some bStar, []⟩
        (apDecode ⟨buildDecoderFields [], some bStar⟩ inst0 [("", "1")])
        [] [] = [Tok.objStart, Tok.objEnd] :=
  ⟨rfl, rfl⟩

/-- C1 amended: for a type with an additional-properties binding and an
input object all of whose keys are nonempty, decoding and re-encoding
reproduces every unknown key (one matching no typed field exactly nor
case-insensitively) together with the byte-identical fragment of its
last occurrence in the input, whatever order the encoder's map ranges
happen to take. -/
theorem roundtrip_unknown_keys (fields : List Binding) (apb : Binding)
    (omits : List (String × Bool)) (inst : Instance)
    (input : List (String × Fragment))
    (hkeys : ∀ p ∈ input, p.1 ≠ "")
    (k : String) (v : Fragment)
    (h1 : mapLookup (buildDecoderFields fields) k = none)
    (h2 : mapLookup (buildDecoderFields fields) (lowerString k) = none)
    (hlast : lastVal input k = some v)
    (fperm : List (String × Binding)) (aperm : List (String × Fragment))
    (hf : List.Perm fperm (buildEncoderFields fields))
    (ha : List.Perm aperm
        ((apDecode ⟨buildDecoderFields fields, some apb⟩ inst
          input).ap.getD [])) :
    (k, v) ∈ pairsOf (apEncode ⟨buildEncoderFields fields, some apb, omits⟩
        (apDecode ⟨buildDecoderFields fields, some apb⟩ inst input)
        fperm aperm) := by
  have hlk : mapLookup
      ((apDecode ⟨buildDecoderFields fields, some apb⟩ inst
        input).ap.getD []) k = some v := by
    rw [apDecode_ap_lookup ⟨buildDecoderFields fields, some apb⟩ k rfl h1 h2
      input inst hkeys]
    exact hlast
  have hmem := mem_of_mapLookup _ _ _ hlk
  have hmem2 : (k, v) ∈ aperm := ha.mem_iff.mpr hmem
  rw [apEncode_closed, pairsOf_output]
  exact List.mem_append_right _ hmem2

/-- Witness: the unknown pair `("x","1")` survives the round trip. -/
theorem roundtrip_unknown_keys_witness :
    ("x", "1") ∈ pairsOf (apEncode ⟨buildEncoderFields [], some bStar, []⟩
        (apDecode ⟨buildDecoderFields [], some bStar⟩ inst0 [("x", "1")])
        [] [("x", "1")]) :=
  roundtrip_unknown_keys [] bStar [] inst0 [("x", "1")] (by decide) "x" "1"
    rfl rfl rfl [] [("x", "1")] (List.Perm.refl _) (List.Perm.refl _)
